import Mathlib

/-!
Verification development for the lifecycle-hook execution engine of this
repository (package env) and its configuration helper (package conf).

The repository fragment available contains the engine's own test suite
(pkg/env/env_test.go) and pkg/conf/config.go.  The production engine
(pkg/env, pkg/envconf, pkg/features) is therefore modelled here from the
specification document; every definition whose doc comment starts with
"Modelled from the spec:" embeds the component the spec describes, using
the names the test suite uses for it.  pkg/conf/config.go is embedded
directly from its source.

The execution engine is generic in the context type Ctx (the Go code
threads a context.Context value; the spec treats it as an opaque,
linearly-threaded carrier of ambient state).  Each hook invocation is
recorded as an Event carrying the kind of invocation together with the
context handed to the hook and the context it returned, so that ordering,
filtering and threading properties can be stated about one run.
-/

namespace E2E

namespace envconf

/-- Modelled from the spec: the Config collaborator (spec sections 3 and 6) —
a namespace string plus optional feature-name / assessment-name filter
patterns.  The regular-expression engine is external to this repository, so
a pattern is modelled by its matching predicate on names. -/
structure Config where
  nspace : String
  featureRegex : Option (String → Bool)
  assessmentRegex : Option (String → Bool)

/-- Modelled from the spec: envconf.New used by the tests — default
configuration: empty namespace, no filters configured. -/
def New : Config := ⟨"", none, none⟩

/-- Modelled from the spec: configure the feature-name filter pattern. -/
def Config.WithFeatureRegex (c : Config) (p : String → Bool) : Config :=
  { c with featureRegex := some p }

/-- Modelled from the spec: configure the assessment-name filter pattern. -/
def Config.WithAssessmentRegex (c : Config) (p : String → Bool) : Config :=
  { c with assessmentRegex := some p }

/-- Modelled from the spec: the namespace accessor used by the tests. -/
def Config.Namespace (c : Config) : String := c.nspace

/-- Modelled from the spec (section 4.3): matchesFeature is true if no
feature-name pattern is configured, else true iff the name matches the
configured pattern. -/
def matchesFeature (c : Config) (name : String) : Bool :=
  match c.featureRegex with
  | none => true
  | some p => p name

/-- Modelled from the spec (section 4.3): matchesAssessment, analogous to
matchesFeature with the independent assessment pattern. -/
def matchesAssessment (c : Config) (name : String) : Bool :=
  match c.assessmentRegex with
  | none => true
  | some p => p name

end envconf

/-- Modelled from the spec: the opaque test handle passed through Test to
hooks and assessment steps (the Go *testing.T).  The engine never inspects
it, so it is modelled as an opaque token. -/
structure TestHandle where

namespace features

/-- Modelled from the spec (section 3): an Assessment is a name and a step
function (context, testHandle, config) -> context, with no error channel. -/
structure Assessment (Ctx : Type) where
  name : String
  step : Ctx → TestHandle → envconf.Config → Ctx

/-- Modelled from the spec (section 3): a Feature is a name, a label set of
key/value strings, and an ordered sequence of Assessments. -/
structure Feature (Ctx : Type) where
  name : String
  labels : List (String × String)
  steps : List (Assessment Ctx)

/-- Modelled from the spec (sections 4.2 and 6): the feature builder that
accumulates named assessment steps in call order. -/
structure FeatureBuilder (Ctx : Type) where
  name : String
  labels : List (String × String)
  steps : List (Assessment Ctx)

/-- Modelled from the spec: features.New starts a builder for a named
feature with no labels and no steps. -/
def New {Ctx : Type} (name : String) : FeatureBuilder Ctx := ⟨name, [], []⟩

/-- Modelled from the spec: ordered-append of a named assessment step. -/
def FeatureBuilder.Assess {Ctx : Type} (b : FeatureBuilder Ctx) (n : String)
    (fn : Ctx → TestHandle → envconf.Config → Ctx) : FeatureBuilder Ctx :=
  { b with steps := b.steps ++ [⟨n, fn⟩] }

/-- Modelled from the spec: attach a label key/value pair to the feature
under construction. -/
def FeatureBuilder.WithLabel {Ctx : Type} (b : FeatureBuilder Ctx) (k v : String) :
    FeatureBuilder Ctx :=
  { b with labels := b.labels ++ [(k, v)] }

/-- Modelled from the spec: freeze the builder into an immutable Feature
snapshot. -/
def FeatureBuilder.Feature {Ctx : Type} (b : FeatureBuilder Ctx) : Feature Ctx :=
  ⟨b.name, b.labels, b.steps⟩

/-- Modelled from the spec (section 6): a Feature exposes its label
mapping to before/after-feature hooks. -/
def Feature.Labels {Ctx : Type} (f : Feature Ctx) : List (String × String) := f.labels

/-- Modelled from the spec (section 6): a Feature exposes its ordered list
of steps. -/
def Feature.Steps {Ctx : Type} (f : Feature Ctx) : List (Assessment Ctx) := f.steps

/-- Modelled from the spec (section 4.2, copy-on-expose): the isolated view
of a feature handed to each before/after-feature hook invocation.  In this
pure embedding a structural copy of a value is the value itself; the
isolation content lives in the engine, which recomputes the view from the
original feature at every hook invocation and never writes a hook's
(possibly mutated) returned view back into the feature or into another
invocation's view. -/
def deepCopyFeature {Ctx : Type} (f : Feature Ctx) : Feature Ctx :=
  ⟨f.name, f.labels, f.steps⟩

end features

namespace env

open features envconf

/-- Modelled from the spec (section 3): the role tag fixed at registration
time, one per lifecycle point. -/
inductive actionRole where
  | roleSetup
  | roleBeforeTest
  | roleAfterTest
  | roleBeforeFeature
  | roleAfterFeature
  | roleFinish
deriving DecidableEq, Repr

/-- Modelled from the spec: callback shape of setup and finish hooks,
(context, config) -> (context, error). -/
def EnvFunc (Ctx : Type) : Type := Ctx → envconf.Config → Ctx × Option String

/-- Modelled from the spec: callback shape of per-test hooks,
(context, config, testHandle) -> (context, error). -/
def TestFunc (Ctx : Type) : Type := Ctx → envconf.Config → TestHandle → Ctx × Option String

/-- Modelled from the spec: callback shape of per-feature hooks,
(context, config, featureInfo) -> (context, error).  The returned Feature
component models the state of the live feature view the hook was handed
after any in-place mutations the hook performed on it (in Go the label
mapping is a reference; a pure embedding surfaces the mutation as part of
the result).  The engine's copy-on-expose discipline discards it. -/
def FeatureFunc (Ctx : Type) : Type :=
  Ctx → envconf.Config → Feature Ctx → Ctx × Feature Ctx × Option String

/-- Modelled from the spec (design note, section 9): the closed set of
tagged callback variants, one per hook arity. -/
inductive ActionCallback (Ctx : Type) where
  | envFunc (f : EnvFunc Ctx)
  | testFunc (f : TestFunc Ctx)
  | featureFunc (f : FeatureFunc Ctx)

/-- Modelled from the spec (section 3): an Action is a role tag plus a
callback; the role is fixed at registration time. -/
structure Action (Ctx : Type) where
  role : actionRole
  callback : ActionCallback Ctx

/-- Modelled from the spec: the engine instance (the Go testEnv) — the
ambient context, the configuration, and the action registry as one ordered
list of role-tagged actions (insertion order preserved, duplicates
allowed). -/
structure testEnv (Ctx : Type) where
  ctx : Ctx
  cfg : envconf.Config
  actions : List (Action Ctx)

/-- Modelled from the spec (section 6): New — default config; the caller
supplies the initial ambient context value (the Go background context). -/
def newTestEnv {Ctx : Type} (c : Ctx) : testEnv Ctx := ⟨c, envconf.New, []⟩

/-- Modelled from the spec (section 6): NewWithConfig. -/
def NewWithConfig {Ctx : Type} (c : Ctx) (cfg : envconf.Config) : testEnv Ctx :=
  ⟨c, cfg, []⟩

/-- Modelled from the spec (section 6): NewWithContext fails if the
supplied context is nil (modelled by none). -/
def NewWithContext {Ctx : Type} (c : Option Ctx) (cfg : envconf.Config) :
    Option (testEnv Ctx) :=
  c.map (fun c0 => ⟨c0, cfg, []⟩)

/-- Modelled from the spec (section 4.1): register(role, action) appends
the action to the registry; never fails; returns the engine for chained
registration. -/
def testEnv.register {Ctx : Type} (e : testEnv Ctx) (a : Action Ctx) : testEnv Ctx :=
  { e with actions := e.actions ++ [a] }

/-- Modelled from the spec (section 6): Setup registration. -/
def testEnv.Setup {Ctx : Type} (e : testEnv Ctx) (f : EnvFunc Ctx) : testEnv Ctx :=
  e.register ⟨.roleSetup, .envFunc f⟩

/-- Modelled from the spec (section 6): BeforeEachTest registration. -/
def testEnv.BeforeEachTest {Ctx : Type} (e : testEnv Ctx) (f : TestFunc Ctx) : testEnv Ctx :=
  e.register ⟨.roleBeforeTest, .testFunc f⟩

/-- Modelled from the spec (section 6): AfterEachTest registration. -/
def testEnv.AfterEachTest {Ctx : Type} (e : testEnv Ctx) (f : TestFunc Ctx) : testEnv Ctx :=
  e.register ⟨.roleAfterTest, .testFunc f⟩

/-- Modelled from the spec (section 6): BeforeEachFeature registration. -/
def testEnv.BeforeEachFeature {Ctx : Type} (e : testEnv Ctx) (f : FeatureFunc Ctx) : testEnv Ctx :=
  e.register ⟨.roleBeforeFeature, .featureFunc f⟩

/-- Modelled from the spec (section 6): AfterEachFeature registration. -/
def testEnv.AfterEachFeature {Ctx : Type} (e : testEnv Ctx) (f : FeatureFunc Ctx) : testEnv Ctx :=
  e.register ⟨.roleAfterFeature, .featureFunc f⟩

/-- Modelled from the spec (section 6): Finish registration. -/
def testEnv.Finish {Ctx : Type} (e : testEnv Ctx) (f : EnvFunc Ctx) : testEnv Ctx :=
  e.register ⟨.roleFinish, .envFunc f⟩

/-- Modelled from the spec (section 4.1): actionsForRole — the exact
registered sequence for that role, empty if none registered; a read-only
query with no side effect on the registry. -/
def testEnv.getActionsByRole {Ctx : Type} (e : testEnv Ctx) (r : actionRole) : List (Action Ctx) :=
  e.actions.filter (fun a => decide (a.role = r))

/-- Project the env-shaped callbacks out of an action list (registration
only ever pairs roleSetup/roleFinish with this shape). -/
def envFuncs {Ctx : Type} (acts : List (Action Ctx)) : List (EnvFunc Ctx) :=
  acts.filterMap (fun a =>
    match a.callback with
    | .envFunc f => some f
    | _ => none)

/-- Project the per-test callbacks out of an action list. -/
def testFuncs {Ctx : Type} (acts : List (Action Ctx)) : List (TestFunc Ctx) :=
  acts.filterMap (fun a =>
    match a.callback with
    | .testFunc f => some f
    | _ => none)

/-- Project the per-feature callbacks out of an action list. -/
def featureFuncs {Ctx : Type} (acts : List (Action Ctx)) : List (FeatureFunc Ctx) :=
  acts.filterMap (fun a =>
    match a.callback with
    | .featureFunc f => some f
    | _ => none)

/-- The before-feature callbacks of an engine, in registration order. -/
def beforeFeatureActionsOf {Ctx : Type} (e : testEnv Ctx) : List (FeatureFunc Ctx) :=
  featureFuncs (e.getActionsByRole .roleBeforeFeature)

/-- The after-feature callbacks of an engine, in registration order. -/
def afterFeatureActionsOf {Ctx : Type} (e : testEnv Ctx) : List (FeatureFunc Ctx) :=
  featureFuncs (e.getActionsByRole .roleAfterFeature)

/-- The before-test callbacks of an engine, in registration order. -/
def beforeTestActionsOf {Ctx : Type} (e : testEnv Ctx) : List (TestFunc Ctx) :=
  testFuncs (e.getActionsByRole .roleBeforeTest)

/-- The after-test callbacks of an engine, in registration order. -/
def afterTestActionsOf {Ctx : Type} (e : testEnv Ctx) : List (TestFunc Ctx) :=
  testFuncs (e.getActionsByRole .roleAfterTest)

/-- The kind of one recorded hook or assessment invocation: which
lifecycle point, which hook (by registration index), and for per-feature
hooks the feature name and the label view the hook observed. -/
inductive EventKind where
  | kSetup (hookIdx : Nat)
  | kBeforeFeature (hookIdx : Nat) (featName : String) (viewLabels : List (String × String))
  | kBeforeTest (hookIdx : Nat)
  | kAssess (featName : String) (asmtName : String)
  | kAfterTest (hookIdx : Nat)
  | kAfterFeature (hookIdx : Nat) (featName : String) (viewLabels : List (String × String))
  | kFinish (hookIdx : Nat)
deriving DecidableEq, Repr

/-- One recorded invocation: its kind, the context the engine passed in,
and the context the invocation returned. -/
structure Event (Ctx : Type) where
  kind : EventKind
  ctxIn : Ctx
  ctxOut : Ctx

/-- Modelled from the spec (section 4.4 step 2c and section 7): run the
before-test actions in registration order, threading the context; the
first returned error stops the remaining steps of the current feature
(the Bool result records whether all hooks succeeded). -/
def runBeforeTestActions {Ctx : Type} (cfg : envconf.Config) (th : TestHandle) :
    List (TestFunc Ctx) → Nat → Ctx → Ctx × List (Event Ctx) × Bool
  | [], _, c => (c, [], true)
  | f :: rest, i, c =>
    let r := f c cfg th
    match r.2 with
    | some _ => (r.1, [⟨.kBeforeTest i, c, r.1⟩], false)
    | none =>
      let q := runBeforeTestActions cfg th rest (i + 1) r.1
      (q.1, ⟨.kBeforeTest i, c, r.1⟩ :: q.2.1, q.2.2)

/-- Modelled from the spec (section 4.4 step 2e and section 7): run the
after-test actions in registration order, threading the context; after
hooks are best-effort cleanup, so an error is reported but does not stop
the remaining hooks. -/
def runAfterTestActions {Ctx : Type} (cfg : envconf.Config) (th : TestHandle) :
    List (TestFunc Ctx) → Nat → Ctx → Ctx × List (Event Ctx)
  | [], _, c => (c, [])
  | f :: rest, i, c =>
    let r := f c cfg th
    let q := runAfterTestActions cfg th rest (i + 1) r.1
    (q.1, ⟨.kAfterTest i, c, r.1⟩ :: q.2)

/-- Modelled from the spec (section 4.4 step 2b and section 4.2): run the
before-feature actions in registration order, handing every invocation an
isolated view recomputed from the original feature (copy-on-expose); the
view a hook returns — carrying any mutation it performed — is discarded,
never written back.  The first returned error stops the remaining steps of
the current feature. -/
def runBeforeFeatureActions {Ctx : Type} (cfg : envconf.Config) (f : Feature Ctx) :
    List (FeatureFunc Ctx) → Nat → Ctx → Ctx × List (Event Ctx) × Bool
  | [], _, c => (c, [], true)
  | h :: rest, i, c =>
    let view := deepCopyFeature f
    let r := h c cfg view
    match r.2.2 with
    | some _ => (r.1, [⟨.kBeforeFeature i view.name view.labels, c, r.1⟩], false)
    | none =>
      let q := runBeforeFeatureActions cfg f rest (i + 1) r.1
      (q.1, ⟨.kBeforeFeature i view.name view.labels, c, r.1⟩ :: q.2.1, q.2.2)

/-- Modelled from the spec (section 4.4 step 2f): run the after-feature
actions in registration order with the same isolated label-view discipline
as the before-feature step; best-effort, errors do not stop the remaining
hooks. -/
def runAfterFeatureActions {Ctx : Type} (cfg : envconf.Config) (f : Feature Ctx) :
    List (FeatureFunc Ctx) → Nat → Ctx → Ctx × List (Event Ctx)
  | [], _, c => (c, [])
  | h :: rest, i, c =>
    let view := deepCopyFeature f
    let r := h c cfg view
    let q := runAfterFeatureActions cfg f rest (i + 1) r.1
    (q.1, ⟨.kAfterFeature i view.name view.labels, c, r.1⟩ :: q.2)

/-- Modelled from the spec (section 4.4 step 2d): run each assessment in
the feature's declared order, skipping those whose name fails
matchesAssessment; a selected step receives the current context, the test
handle and the config and returns the next context (no error channel). -/
def runAssessments {Ctx : Type} (cfg : envconf.Config) (th : TestHandle) (fname : String) :
    List (Assessment Ctx) → Ctx → Ctx × List (Event Ctx)
  | [], c => (c, [])
  | a :: rest, c =>
    if matchesAssessment cfg a.name then
      let c' := a.step c th cfg
      let q := runAssessments cfg th fname rest c'
      (q.1, ⟨.kAssess fname a.name, c, c'⟩ :: q.2)
    else
      runAssessments cfg th fname rest c

/-- Modelled from the spec (section 4.4 step 2): process one selected
feature — before-feature hooks, before-test hooks, selected assessments,
after-test hooks, after-feature hooks, threading the context; an error
from a before hook skips the remaining steps of this feature only. -/
def processFeature {Ctx : Type} (cfg : envconf.Config) (th : TestHandle)
    (bfHooks afHooks : List (FeatureFunc Ctx)) (btHooks atHooks : List (TestFunc Ctx))
    (f : Feature Ctx) (c : Ctx) : Ctx × List (Event Ctx) :=
  let rbf := runBeforeFeatureActions cfg f bfHooks 0 c
  match rbf.2.2 with
  | false => (rbf.1, rbf.2.1)
  | true =>
    let rbt := runBeforeTestActions cfg th btHooks 0 rbf.1
    match rbt.2.2 with
    | false => (rbt.1, rbf.2.1 ++ rbt.2.1)
    | true =>
      let ras := runAssessments cfg th f.name f.steps rbt.1
      let rat := runAfterTestActions cfg th atHooks 0 ras.1
      let raf := runAfterFeatureActions cfg f afHooks 0 rat.1
      (raf.1, rbf.2.1 ++ rbt.2.1 ++ ras.2 ++ rat.2 ++ raf.2)

/-- Modelled from the spec (section 4.4 step 2a): process the supplied
features in order, skipping a feature whose name fails matchesFeature
entirely, and threading the context from the last hook of one feature into
the first hook of the next. -/
def processFeatures {Ctx : Type} (cfg : envconf.Config) (th : TestHandle)
    (bfHooks afHooks : List (FeatureFunc Ctx)) (btHooks atHooks : List (TestFunc Ctx)) :
    List (Feature Ctx) → Ctx → Ctx × List (Event Ctx)
  | [], c => (c, [])
  | f :: rest, c =>
    if matchesFeature cfg f.name then
      let r := processFeature cfg th bfHooks afHooks btHooks atHooks f c
      let q := processFeatures cfg th bfHooks afHooks btHooks atHooks rest r.1
      (q.1, r.2 ++ q.2)
    else
      processFeatures cfg th bfHooks afHooks btHooks atHooks rest c

/-- Modelled from the spec (sections 4.4 and 6): Test(testHandle,
feature...) — run the supplied features against the registered per-feature
and per-test hooks, return the engine with the final context retained as
its ambient context, together with the recorded invocation sequence.  The
no-features call is a no-op returning the current context unchanged.
Setup and finish actions run once per engine instance outside Test (steps
1 and 3 of the algorithm, modelled by runSetup and runFinish below). -/
def testEnv.Test {Ctx : Type} (e : testEnv Ctx) (th : TestHandle)
    (feats : List (Feature Ctx)) : testEnv Ctx × List (Event Ctx) :=
  let r := processFeatures e.cfg th (beforeFeatureActionsOf e) (afterFeatureActionsOf e)
    (beforeTestActionsOf e) (afterTestActionsOf e) feats e.ctx
  ({ e with ctx := r.1 }, r.2)

/-- Modelled from the spec (section 4.4 step 1 and section 7): run a list
of fatal-tier actions in registration order, threading the context; the
first returned error aborts the whole run. -/
def runFatalActions {Ctx : Type} (cfg : envconf.Config)
    (mk : Nat → EventKind) :
    List (EnvFunc Ctx) → Nat → Ctx → Ctx × List (Event Ctx) × Bool
  | [], _, c => (c, [], true)
  | f :: rest, i, c =>
    let r := f c cfg
    match r.2 with
    | some _ => (r.1, [⟨mk i, c, r.1⟩], false)
    | none =>
      let q := runFatalActions cfg mk rest (i + 1) r.1
      (q.1, ⟨mk i, c, r.1⟩ :: q.2.1, q.2.2)

/-- Modelled from the spec (section 4.4 step 1): run the setup actions
once per engine instance, in registration order, before the first Test
call that needs them; an error aborts the run fatally. -/
def testEnv.runSetup {Ctx : Type} (e : testEnv Ctx) : testEnv Ctx × List (Event Ctx) × Bool :=
  let r := runFatalActions e.cfg .kSetup (envFuncs (e.getActionsByRole .roleSetup)) 0 e.ctx
  ({ e with ctx := r.1 }, r.2.1, r.2.2)

/-- Modelled from the spec (section 4.4 step 3): run the finish actions in
registration order exactly once per engine instance, at teardown. -/
def testEnv.runFinish {Ctx : Type} (e : testEnv Ctx) : testEnv Ctx × List (Event Ctx) × Bool :=
  let r := runFatalActions e.cfg .kFinish (envFuncs (e.getActionsByRole .roleFinish)) 0 e.ctx
  ({ e with ctx := r.1 }, r.2.1, r.2.2)

/-- The statement that an event list is linearly threaded: starting from
context c, each event's input context is exactly the context the previous
event returned, and the last event returns cEnd (cEnd = c when the list is
empty). -/
def chainedFrom {Ctx : Type} (c : Ctx) : List (Event Ctx) → Ctx → Prop
  | [], cEnd => cEnd = c
  | e :: rest, cEnd => e.ctxIn = c ∧ chainedFrom e.ctxOut rest cEnd

/-- A per-test hook that never returns an error. -/
def testFuncNoFail {Ctx : Type} (f : TestFunc Ctx) : Prop :=
  ∀ c cfg th, (f c cfg th).2 = none

/-- A per-feature hook that never returns an error. -/
def featureFuncNoFail {Ctx : Type} (h : FeatureFunc Ctx) : Prop :=
  ∀ c cfg ft, (h c cfg ft).2.2 = none

/-- The assessment-invocation kinds a feature contributes: its selected
steps in declared order. -/
def assessKinds {Ctx : Type} (cfg : envconf.Config) (f : Feature Ctx) : List EventKind :=
  (f.steps.filter (fun a => matchesAssessment cfg a.name)).map
    (fun a => .kAssess f.name a.name)

/-- The invocation kinds one selected feature contributes on the error-free
path: every before-feature hook, then every before-test hook, then the
selected assessments, then every after-test hook, then every after-feature
hook, each hook once, in registration order. -/
def blockKinds {Ctx : Type} (cfg : envconf.Config) (nbf nbt nat' naf : Nat)
    (f : Feature Ctx) : List EventKind :=
  (List.range' 0 nbf).map (fun i => .kBeforeFeature i f.name f.labels)
    ++ (List.range' 0 nbt).map (fun i => .kBeforeTest i)
    ++ assessKinds cfg f
    ++ (List.range' 0 nat').map (fun i => .kAfterTest i)
    ++ (List.range' 0 naf).map (fun i => .kAfterFeature i f.name f.labels)

/-- Concatenation of the per-feature kind blocks over a feature list. -/
def flatKinds {Ctx : Type} (g : Feature Ctx → List EventKind) :
    List (Feature Ctx) → List EventKind
  | [] => []
  | f :: rest => g f ++ flatKinds g rest

end env

namespace conf

/-- The external k8s rest.Config consumed by pkg/conf/config.go, modelled
opaquely (the engine and config code never look inside it). -/
structure RestConfig where
  host : String
deriving DecidableEq, Repr

/-- TestConfig from src/pkg/conf/config.go: a namespace string and an
optional kubernetes rest config. -/
structure TestConfig where
  nspace : String
  kubecfg : Option RestConfig
deriving DecidableEq, Repr

/-- Config from src/pkg/conf/config.go is an alias of the external
types.Config interface; the only implementation in this repository is
TestConfig. -/
def Config : Type := TestConfig

/-- New from src/pkg/conf/config.go: a fresh zero-valued TestConfig. -/
def New : Config := (⟨"", none⟩ : TestConfig)

/-- NewWithKubecfgFile from src/pkg/conf/config.go: the body returns
nil, nil — a nil Config (modelled none) and a nil error (modelled none) —
ignoring the filePath argument entirely. -/
def NewWithKubecfgFile (filePath : String) : Option Config × Option String :=
  (none, none)

/-- WithConfig from src/pkg/conf/config.go: sets the kubecfg field and
returns the config. -/
def WithConfig (c : TestConfig) (cfg : RestConfig) : Config :=
  ({ c with kubecfg := some cfg } : TestConfig)

/-- WithNamespace from src/pkg/conf/config.go: sets the namespace field
and returns the config. -/
def WithNamespace (c : TestConfig) (ns : String) : Config :=
  ({ c with nspace := ns } : TestConfig)

end conf

namespace examples

/-- A concrete test handle for the scenario runs. -/
def th0 : TestHandle := ⟨⟩

/-- Engine of the full-pipeline scenario: one before-test hook appending
"before" and one after-test hook appending "after", no other hooks. -/
def envPipeline : env.testEnv (List String) :=
  ((env.newTestEnv ([] : List String)).BeforeEachTest
      (fun c _ _ => (c ++ ["before"], none))).AfterEachTest
      (fun c _ _ => (c ++ ["after"], none))

/-- Feature of the full-pipeline scenario: one assessment appending
"mid". -/
def featPipeline : features.Feature (List String) :=
  ((features.New "test-feat" : features.FeatureBuilder (List String)).Assess
      "assess" (fun c _ _ => c ++ ["mid"])).Feature

/-- A matching predicate for the feature-name pattern "A". -/
def patA : String → Bool := fun n => n == "A"

/-- A matching predicate for the feature-name pattern "B". -/
def patB : String → Bool := fun n => n == "B"

/-- Engine configured with feature-name pattern "A". -/
def envFilterA : env.testEnv (List String) :=
  env.NewWithConfig [] (envconf.New.WithFeatureRegex patA)

/-- Engine configured with feature-name pattern "B". -/
def envFilterB : env.testEnv (List String) :=
  env.NewWithConfig [] (envconf.New.WithFeatureRegex patB)

/-- Feature named "A" with one assessment appending "A-ran". -/
def featA : features.Feature (List String) :=
  ((features.New "A" : features.FeatureBuilder (List String)).Assess
      "assess" (fun c _ _ => c ++ ["A-ran"])).Feature

/-- A matching predicate instance for the assessment-name pattern
"add-*" of the filter scenario: true exactly on names starting with
"add-" (it selects add-one and add-two and rejects take-one, as the
external regular-expression engine does on those names). -/
def addPat : String → Bool := fun n => "add-".toList.isPrefixOf n.toList

/-- Engine configured with the assessment-name pattern of the
assessment-filter scenario. -/
def envAssessFilter : env.testEnv (List String) :=
  env.NewWithConfig [] (envconf.New.WithAssessmentRegex addPat)

/-- Feature with assessments add-one, add-two, take-one appending the
markers "add-1", "add-2", "take-1" respectively. -/
def featAddTake : features.Feature (List String) :=
  ((((features.New "test-feat" : features.FeatureBuilder (List String)).Assess
      "add-one" (fun c _ _ => c ++ ["add-1"])).Assess
      "add-two" (fun c _ _ => c ++ ["add-2"])).Assess
      "take-one" (fun c _ _ => c ++ ["take-1"])).Feature

/-- Engine with one hook of each per-test and per-feature role, none of
them failing, used to witness the ordering theorems. -/
def envAllHooks : env.testEnv (List String) :=
  ((((env.newTestEnv ([] : List String)).BeforeEachTest
      (fun c _ _ => (c ++ ["bt"], none))).AfterEachTest
      (fun c _ _ => (c ++ ["at"], none))).BeforeEachFeature
      (fun c _ v => (c ++ ["bf"], v, none))).AfterEachFeature
      (fun c _ v => (c ++ ["af"], v, none))

/-- First of two features used to witness the ordering theorems. -/
def featW1 : features.Feature (List String) :=
  ((features.New "test-feat-1" : features.FeatureBuilder (List String)).Assess
      "assess" (fun c _ _ => c ++ ["f1"])).Feature

/-- Second of two features used to witness the ordering theorems. -/
def featW2 : features.Feature (List String) :=
  ((features.New "test-feat-2" : features.FeatureBuilder (List String)).Assess
      "assess" (fun c _ _ => c ++ ["f2"])).Feature

end examples

namespace env

open features envconf

/-- Linearly threaded event lists compose across concatenation. -/
theorem chainedFrom_append {Ctx : Type} (l₁ : List (Event Ctx)) :
    ∀ {c c₁ c₂ : Ctx} {l₂ : List (Event Ctx)},
      chainedFrom c l₁ c₁ → chainedFrom c₁ l₂ c₂ → chainedFrom c (l₁ ++ l₂) c₂ := by
  induction l₁ with
  | nil =>
    intro c c₁ c₂ l₂ h₁ h₂
    have h : c₁ = c := h₁
    subst h
    exact h₂
  | cons e rest ih =>
    intro c c₁ c₂ l₂ h₁ h₂
    obtain ⟨hin, hrest⟩ := h₁
    exact ⟨hin, ih hrest h₂⟩

/-- The before-test runner threads the context linearly through its
recorded invocations. -/
theorem runBeforeTestActions_chained {Ctx : Type} (cfg : envconf.Config) (th : TestHandle)
    (hooks : List (TestFunc Ctx)) :
    ∀ (i : Nat) (c : Ctx),
      chainedFrom c (runBeforeTestActions cfg th hooks i c).2.1
        (runBeforeTestActions cfg th hooks i c).1 := by
  induction hooks with
  | nil => intro i c; exact rfl
  | cons f rest ih =>
    intro i c
    simp only [runBeforeTestActions]
    cases h : (f c cfg th).2 with
    | some e => exact ⟨rfl, rfl⟩
    | none => exact ⟨rfl, ih (i + 1) (f c cfg th).1⟩

/-- The after-test runner threads the context linearly. -/
theorem runAfterTestActions_chained {Ctx : Type} (cfg : envconf.Config) (th : TestHandle)
    (hooks : List (TestFunc Ctx)) :
    ∀ (i : Nat) (c : Ctx),
      chainedFrom c (runAfterTestActions cfg th hooks i c).2
        (runAfterTestActions cfg th hooks i c).1 := by
  induction hooks with
  | nil => intro i c; exact rfl
  | cons f rest ih =>
    intro i c
    simp only [runAfterTestActions]
    exact ⟨rfl, ih (i + 1) (f c cfg th).1⟩

/-- The before-feature runner threads the context linearly. -/
theorem runBeforeFeatureActions_chained {Ctx : Type} (cfg : envconf.Config)
    (f : Feature Ctx) (hooks : List (FeatureFunc Ctx)) :
    ∀ (i : Nat) (c : Ctx),
      chainedFrom c (runBeforeFeatureActions cfg f hooks i c).2.1
        (runBeforeFeatureActions cfg f hooks i c).1 := by
  induction hooks with
  | nil => intro i c; exact rfl
  | cons h rest ih =>
    intro i c
    simp only [runBeforeFeatureActions]
    cases hr : (h c cfg (deepCopyFeature f)).2.2 with
    | some e => exact ⟨rfl, rfl⟩
    | none => exact ⟨rfl, ih (i + 1) (h c cfg (deepCopyFeature f)).1⟩

/-- The after-feature runner threads the context linearly. -/
theorem runAfterFeatureActions_chained {Ctx : Type} (cfg : envconf.Config)
    (f : Feature Ctx) (hooks : List (FeatureFunc Ctx)) :
    ∀ (i : Nat) (c : Ctx),
      chainedFrom c (runAfterFeatureActions cfg f hooks i c).2
        (runAfterFeatureActions cfg f hooks i c).1 := by
  induction hooks with
  | nil => intro i c; exact rfl
  | cons h rest ih =>
    intro i c
    simp only [runAfterFeatureActions]
    exact ⟨rfl, ih (i + 1) (h c cfg (deepCopyFeature f)).1⟩

/-- The assessment runner threads the context linearly. -/
theorem runAssessments_chained {Ctx : Type} (cfg : envconf.Config) (th : TestHandle)
    (fname : String) (steps : List (Assessment Ctx)) :
    ∀ (c : Ctx),
      chainedFrom c (runAssessments cfg th fname steps c).2
        (runAssessments cfg th fname steps c).1 := by
  induction steps with
  | nil => intro c; exact rfl
  | cons a rest ih =>
    intro c
    simp only [runAssessments]
    by_cases hm : matchesAssessment cfg a.name = true
    · rw [if_pos hm]
      exact ⟨rfl, ih (a.step c th cfg)⟩
    · rw [if_neg hm]
      exact ih c

/-- Processing one feature threads the context linearly through all its
recorded invocations. -/
theorem processFeature_chained {Ctx : Type} (cfg : envconf.Config) (th : TestHandle)
    (bfHooks afHooks : List (FeatureFunc Ctx)) (btHooks atHooks : List (TestFunc Ctx))
    (f : Feature Ctx) (c : Ctx) :
    chainedFrom c (processFeature cfg th bfHooks afHooks btHooks atHooks f c).2
      (processFeature cfg th bfHooks afHooks btHooks atHooks f c).1 := by
  simp only [processFeature]
  cases hbf : (runBeforeFeatureActions cfg f bfHooks 0 c).2.2 with
  | false => exact runBeforeFeatureActions_chained cfg f bfHooks 0 c
  | true =>
    cases hbt : (runBeforeTestActions cfg th btHooks 0
        (runBeforeFeatureActions cfg f bfHooks 0 c).1).2.2 with
    | false =>
      exact chainedFrom_append _ (runBeforeFeatureActions_chained cfg f bfHooks 0 c)
        (runBeforeTestActions_chained cfg th btHooks 0 _)
    | true =>
      exact chainedFrom_append _
        (chainedFrom_append _
          (chainedFrom_append _
            (chainedFrom_append _
              (runBeforeFeatureActions_chained cfg f bfHooks 0 c)
              (runBeforeTestActions_chained cfg th btHooks 0 _))
            (runAssessments_chained cfg th f.name f.steps _))
          (runAfterTestActions_chained cfg th atHooks 0 _))
        (runAfterFeatureActions_chained cfg f afHooks 0 _)

/-- Processing a feature list threads the context linearly. -/
theorem processFeatures_chained {Ctx : Type} (cfg : envconf.Config) (th : TestHandle)
    (bfHooks afHooks : List (FeatureFunc Ctx)) (btHooks atHooks : List (TestFunc Ctx))
    (feats : List (Feature Ctx)) :
    ∀ (c : Ctx),
      chainedFrom c (processFeatures cfg th bfHooks afHooks btHooks atHooks feats c).2
        (processFeatures cfg th bfHooks afHooks btHooks atHooks feats c).1 := by
  induction feats with
  | nil => intro c; exact rfl
  | cons f rest ih =>
    intro c
    simp only [processFeatures]
    by_cases hm : matchesFeature cfg f.name = true
    · rw [if_pos hm]
      exact chainedFrom_append _
        (processFeature_chained cfg th bfHooks afHooks btHooks atHooks f c) (ih _)
    · rw [if_neg hm]
      exact ih c

/-- One Test call threads the context linearly from the ambient context to
the retained final context. -/
theorem test_chained {Ctx : Type} (e : testEnv Ctx) (th : TestHandle)
    (feats : List (Feature Ctx)) :
    chainedFrom e.ctx (e.Test th feats).2 ((e.Test th feats).1).ctx :=
  processFeatures_chained e.cfg th (beforeFeatureActionsOf e) (afterFeatureActionsOf e)
    (beforeTestActionsOf e) (afterTestActionsOf e) feats e.ctx

/-- Folding registrations appends them to the action list in order. -/
theorem foldl_register_actions {Ctx : Type} (regs : List (Action Ctx)) :
    ∀ (e : testEnv Ctx), (regs.foldl testEnv.register e).actions = e.actions ++ regs := by
  induction regs with
  | nil => intro e; exact (List.append_nil e.actions).symm
  | cons a rest ih =>
    intro e
    rw [List.foldl_cons, ih]
    simp [testEnv.register]

/-- Folding registrations onto a fresh engine yields exactly that action
list. -/
theorem foldl_register_actions_new {Ctx : Type} (c : Ctx) (regs : List (Action Ctx)) :
    (regs.foldl testEnv.register (newTestEnv c)).actions = regs := by
  rw [foldl_register_actions]
  rfl

end env

open env features envconf

/-- Claim C3: during one Test call the context is threaded linearly — each
recorded invocation's input context is exactly the previous invocation's
returned output context, the chain starts at the engine's ambient context
and ends at the context the engine retains; the engine is otherwise
unchanged, and a later Test call on the same instance starts its chain
from that retained context. -/
theorem claimC3_linear_context_threading :
    ∀ (Ctx : Type) (e : env.testEnv Ctx) (th : TestHandle)
      (feats feats₂ : List (features.Feature Ctx)),
      chainedFrom e.ctx (e.Test th feats).2 ((e.Test th feats).1).ctx
        ∧ ((e.Test th feats).1).cfg = e.cfg
        ∧ ((e.Test th feats).1).actions = e.actions
        ∧ chainedFrom ((e.Test th feats).1).ctx ((e.Test th feats).1.Test th feats₂).2
            (((e.Test th feats).1.Test th feats₂).1).ctx :=
  fun _ e th feats feats₂ =>
    ⟨test_chained e th feats, rfl, rfl, test_chained (e.Test th feats).1 th feats₂⟩

/-- Claim C9: Test with a handle and zero features is a no-op — the engine
(including its ambient context) is returned unchanged and the recorded
invocation sequence is empty, so no hook and no assessment ran. -/
theorem claimC9_no_features_noop :
    ∀ (Ctx : Type) (e : env.testEnv Ctx) (th : TestHandle),
      e.Test th [] = (e, []) :=
  fun _ _ _ => rfl

/-- Claim C10: for every filePath, NewWithKubecfgFile returns a nil Config
together with a nil error — it never reads the file, never produces a
usable configuration, and never reports a failure. -/
theorem claimC10_kubecfg_returns_nil :
    ∀ filePath : String, conf.NewWithKubecfgFile filePath = (none, none) :=
  fun _ => rfl

/-- Claim C8: for every interleaving of registrations, actionsForRole
returns, for each role, exactly the actions registered under that role in
registration order (so N registrations under role R yield length N and M
under a different role length M), and querying a role on a fresh engine
with no registrations yields the empty sequence without affecting the
registry. -/
theorem claimC8_role_isolation :
    ∀ (Ctx : Type) (c : Ctx) (regs : List (env.Action Ctx)) (r : env.actionRole),
      ((regs.foldl env.testEnv.register (env.newTestEnv c)).getActionsByRole r
          = regs.filter (fun a => decide (a.role = r)))
        ∧ ((regs.foldl env.testEnv.register (env.newTestEnv c)).getActionsByRole r).length
            = (regs.filter (fun a => decide (a.role = r))).length
        ∧ (env.newTestEnv c).getActionsByRole r = [] := by
  intro Ctx c regs r
  have h : (regs.foldl env.testEnv.register (env.newTestEnv c)).getActionsByRole r
      = regs.filter (fun a => decide (a.role = r)) := by
    simp only [env.testEnv.getActionsByRole, env.foldl_register_actions_new]
  exact ⟨h, congrArg List.length h, rfl⟩

/-- Claim C1: with exactly one before-test hook appending "before", one
after-test hook appending "after" and no other hooks, running Test with
one feature whose single assessment appends "mid" produces the marker
sequence ["before", "mid", "after"]. -/
theorem claimC1_full_pipeline_order :
    (examples.envPipeline.Test examples.th0 [examples.featPipeline]).1.ctx
      = ["before", "mid", "after"] := rfl

/-- Claim C7: a before-feature hook that mutates the label mapping handed
to it (an arbitrary mutation mutf of the view's labels) never causes an
after-feature hook running for a subsequently processed feature to observe
the mutation: an after-feature hook that records the label view it is
handed records exactly each feature's own original labels. -/
theorem claimC7_label_isolation :
    ∀ (mutf : List (String × String) → List (String × String))
      (nA nB : String) (lA lB : List (String × String))
      (c0 : List (List (String × String))),
      ((((env.newTestEnv c0).BeforeEachFeature
            (fun c _ v => (c, { v with labels := mutf v.labels }, none))).AfterEachFeature
            (fun c _ v => (c ++ [v.Labels], v, none))).Test examples.th0
          [⟨nA, lA, []⟩, ⟨nB, lB, []⟩]).1.ctx
        = c0 ++ [lA] ++ [lB] :=
  fun _ _ _ _ _ _ => rfl

namespace env

open features envconf

/-- Error-free before-test hooks record exactly one invocation per hook,
indexed in registration order, and report success. -/
theorem runBeforeTestActions_kinds {Ctx : Type} (cfg : envconf.Config) (th : TestHandle) :
    ∀ (hooks : List (TestFunc Ctx)), (∀ f ∈ hooks, testFuncNoFail f) →
      ∀ (i : Nat) (c : Ctx),
        ((runBeforeTestActions cfg th hooks i c).2.1).map Event.kind
            = (List.range' i hooks.length).map (fun j => EventKind.kBeforeTest j)
          ∧ (runBeforeTestActions cfg th hooks i c).2.2 = true := by
  intro hooks
  induction hooks with
  | nil => intro _ i c; exact ⟨rfl, rfl⟩
  | cons f rest ih =>
    intro hno i c
    have h0 : (f c cfg th).2 = none := hno f (List.mem_cons_self f rest) c cfg th
    have hrest : ∀ g ∈ rest, testFuncNoFail g := fun g hg => hno g (List.mem_cons_of_mem f hg)
    obtain ⟨h1, h2⟩ := ih hrest (i + 1) (f c cfg th).1
    simp only [runBeforeTestActions, h0]
    rw [List.length_cons, List.range'_succ, List.map_cons, List.map_cons, h1]
    exact ⟨rfl, h2⟩

/-- The after-test runner records exactly one invocation per hook, in
registration order. -/
theorem runAfterTestActions_kinds {Ctx : Type} (cfg : envconf.Config) (th : TestHandle) :
    ∀ (hooks : List (TestFunc Ctx)) (i : Nat) (c : Ctx),
      ((runAfterTestActions cfg th hooks i c).2).map Event.kind
        = (List.range' i hooks.length).map (fun j => EventKind.kAfterTest j) := by
  intro hooks
  induction hooks with
  | nil => intro i c; rfl
  | cons f rest ih =>
    intro i c
    simp only [runAfterTestActions]
    rw [List.length_cons, List.range'_succ, List.map_cons, List.map_cons,
      ih (i + 1) (f c cfg th).1]

/-- Error-free before-feature hooks record exactly one invocation per
hook, each observing the original feature's name and labels, and report
success. -/
theorem runBeforeFeatureActions_kinds {Ctx : Type} (cfg : envconf.Config) (f : Feature Ctx) :
    ∀ (hooks : List (FeatureFunc Ctx)), (∀ h ∈ hooks, featureFuncNoFail h) →
      ∀ (i : Nat) (c : Ctx),
        ((runBeforeFeatureActions cfg f hooks i c).2.1).map Event.kind
            = (List.range' i hooks.length).map
                (fun j => EventKind.kBeforeFeature j f.name f.labels)
          ∧ (runBeforeFeatureActions cfg f hooks i c).2.2 = true := by
  intro hooks
  induction hooks with
  | nil => intro _ i c; exact ⟨rfl, rfl⟩
  | cons h rest ih =>
    intro hno i c
    have h0 : (h c cfg (deepCopyFeature f)).2.2 = none :=
      hno h (List.mem_cons_self h rest) c cfg (deepCopyFeature f)
    have hrest : ∀ g ∈ rest, featureFuncNoFail g :=
      fun g hg => hno g (List.mem_cons_of_mem h hg)
    obtain ⟨h1, h2⟩ := ih hrest (i + 1) (h c cfg (deepCopyFeature f)).1
    simp only [runBeforeFeatureActions, h0]
    rw [List.length_cons, List.range'_succ, List.map_cons, List.map_cons, h1]
    exact ⟨rfl, h2⟩

/-- The after-feature runner records exactly one invocation per hook, each
observing the original feature's name and labels. -/
theorem runAfterFeatureActions_kinds {Ctx : Type} (cfg : envconf.Config) (f : Feature Ctx) :
    ∀ (hooks : List (FeatureFunc Ctx)) (i : Nat) (c : Ctx),
      ((runAfterFeatureActions cfg f hooks i c).2).map Event.kind
        = (List.range' i hooks.length).map
            (fun j => EventKind.kAfterFeature j f.name f.labels) := by
  intro hooks
  induction hooks with
  | nil => intro i c; rfl
  | cons h rest ih =>
    intro i c
    simp only [runAfterFeatureActions]
    rw [List.length_cons, List.range'_succ, List.map_cons, List.map_cons,
      ih (i + 1) (h c cfg (deepCopyFeature f)).1]
    rfl

/-- The assessment runner records exactly the selected assessments, in
declared order. -/
theorem runAssessments_kinds {Ctx : Type} (cfg : envconf.Config) (th : TestHandle)
    (fname : String) :
    ∀ (steps : List (Assessment Ctx)) (c : Ctx),
      ((runAssessments cfg th fname steps c).2).map Event.kind
        = (steps.filter (fun a => matchesAssessment cfg a.name)).map
            (fun a => EventKind.kAssess fname a.name) := by
  intro steps
  induction steps with
  | nil => intro c; rfl
  | cons a rest ih =>
    intro c
    cases hm : matchesAssessment cfg a.name with
    | true =>
      simp only [runAssessments]
      rw [if_pos hm, List.map_cons,
        show List.filter (fun a => matchesAssessment cfg a.name) (a :: rest)
            = a :: List.filter (fun a => matchesAssessment cfg a.name) rest by
          simp [List.filter_cons, hm],
        List.map_cons, ih (a.step c th cfg)]
    | false =>
      simp only [runAssessments]
      rw [if_neg (show ¬(matchesAssessment cfg a.name = true) by simp [hm]),
        show List.filter (fun a => matchesAssessment cfg a.name) (a :: rest)
            = List.filter (fun a => matchesAssessment cfg a.name) rest by
          simp [List.filter_cons, hm]]
      exact ih c

/-- On the error-free path, one selected feature's recorded kinds are
exactly its block: each before-feature hook once, each before-test hook
once, its selected assessments in order, each after-test hook once, each
after-feature hook once. -/
theorem processFeature_kinds {Ctx : Type} (cfg : envconf.Config) (th : TestHandle)
    (bfHooks afHooks : List (FeatureFunc Ctx)) (btHooks atHooks : List (TestFunc Ctx))
    (hbf : ∀ h ∈ bfHooks, featureFuncNoFail h) (hbt : ∀ g ∈ btHooks, testFuncNoFail g)
    (f : Feature Ctx) (c : Ctx) :
    ((processFeature cfg th bfHooks afHooks btHooks atHooks f c).2).map Event.kind
      = blockKinds cfg bfHooks.length btHooks.length atHooks.length afHooks.length f := by
  obtain ⟨hbfK, hbfOk⟩ := runBeforeFeatureActions_kinds cfg f bfHooks hbf 0 c
  obtain ⟨hbtK, hbtOk⟩ := runBeforeTestActions_kinds cfg th btHooks hbt 0
    (runBeforeFeatureActions cfg f bfHooks 0 c).1
  simp only [processFeature, hbfOk, hbtOk]
  rw [List.map_append, List.map_append, List.map_append, List.map_append]
  rw [hbfK, hbtK, runAssessments_kinds cfg th f.name f.steps _,
    runAfterTestActions_kinds cfg th atHooks 0 _,
    runAfterFeatureActions_kinds cfg f afHooks 0 _]
  rfl

/-- On the error-free path with all features selected, the recorded kinds
of a feature list are the concatenation of the per-feature blocks, in the
supplied feature order. -/
theorem processFeatures_kinds {Ctx : Type} (cfg : envconf.Config) (th : TestHandle)
    (bfHooks afHooks : List (FeatureFunc Ctx)) (btHooks atHooks : List (TestFunc Ctx))
    (hbf : ∀ h ∈ bfHooks, featureFuncNoFail h) (hbt : ∀ g ∈ btHooks, testFuncNoFail g) :
    ∀ (feats : List (Feature Ctx)), (∀ f ∈ feats, matchesFeature cfg f.name = true) →
      ∀ (c : Ctx),
        ((processFeatures cfg th bfHooks afHooks btHooks atHooks feats c).2).map Event.kind
          = flatKinds
              (blockKinds cfg bfHooks.length btHooks.length atHooks.length afHooks.length)
              feats := by
  intro feats
  induction feats with
  | nil => intro _ c; rfl
  | cons f rest ih =>
    intro hsel c
    have hm : matchesFeature cfg f.name = true := hsel f (List.mem_cons_self f rest)
    have hrest : ∀ g ∈ rest, matchesFeature cfg g.name = true :=
      fun g hg => hsel g (List.mem_cons_of_mem f hg)
    simp only [processFeatures]
    rw [if_pos hm, List.map_append,
      processFeature_kinds cfg th bfHooks afHooks btHooks atHooks hbf hbt f c,
      ih hrest (processFeature cfg th bfHooks afHooks btHooks atHooks f c).1]
    rfl

/-- The kind trace of one Test call on the error-free path with all
features selected: the per-feature blocks in order. -/
theorem test_kinds_shape {Ctx : Type} (e : testEnv Ctx) (th : TestHandle)
    (feats : List (Feature Ctx))
    (hbf : ∀ h ∈ beforeFeatureActionsOf e, featureFuncNoFail h)
    (hbt : ∀ g ∈ beforeTestActionsOf e, testFuncNoFail g)
    (hsel : ∀ f ∈ feats, matchesFeature e.cfg f.name = true) :
    ((e.Test th feats).2).map Event.kind
      = flatKinds
          (blockKinds e.cfg (beforeFeatureActionsOf e).length (beforeTestActionsOf e).length
            (afterTestActionsOf e).length (afterFeatureActionsOf e).length)
          feats := by
  simp only [testEnv.Test]
  exact processFeatures_kinds e.cfg th (beforeFeatureActionsOf e) (afterFeatureActionsOf e)
    (beforeTestActionsOf e) (afterTestActionsOf e) hbf hbt feats hsel e.ctx

/-- Each before-test hook index below the hook count occurs exactly once
in a feature's block. -/
theorem count_block_beforeTest {Ctx : Type} (cfg : envconf.Config) (nbf nbt nat' naf : Nat)
    (f : Feature Ctx) (i : Nat) (hi : i < nbt) :
    (blockKinds cfg nbf nbt nat' naf f).count (EventKind.kBeforeTest i) = 1 := by
  have hinj : Function.Injective (fun j => EventKind.kBeforeTest j) :=
    fun a b hab => by simpa using hab
  have z1 : ((List.range' 0 nbf).map
      (fun j => EventKind.kBeforeFeature j f.name f.labels)).count
        (EventKind.kBeforeTest i) = 0 := by
    rw [List.count_eq_zero]
    intro hmem
    rcases List.mem_map.mp hmem with ⟨j, hj1, hj2⟩
    exact EventKind.noConfusion hj2
  have o2 : ((List.range' 0 nbt).map (fun j => EventKind.kBeforeTest j)).count
      (EventKind.kBeforeTest i) = 1 := by
    rw [← List.range_eq_range']
    exact (List.count_map_of_injective (List.range nbt) _ hinj i).trans
      (List.count_eq_one_of_mem (List.nodup_range nbt) (List.mem_range.mpr hi))
  have z3 : (assessKinds cfg f).count (EventKind.kBeforeTest i) = 0 := by
    rw [List.count_eq_zero]
    intro hmem
    rcases List.mem_map.mp hmem with ⟨a, ha1, ha2⟩
    exact EventKind.noConfusion ha2
  have z4 : ((List.range' 0 nat').map (fun j => EventKind.kAfterTest j)).count
      (EventKind.kBeforeTest i) = 0 := by
    rw [List.count_eq_zero]
    intro hmem
    rcases List.mem_map.mp hmem with ⟨j, hj1, hj2⟩
    exact EventKind.noConfusion hj2
  have z5 : ((List.range' 0 naf).map
      (fun j => EventKind.kAfterFeature j f.name f.labels)).count
        (EventKind.kBeforeTest i) = 0 := by
    rw [List.count_eq_zero]
    intro hmem
    rcases List.mem_map.mp hmem with ⟨j, hj1, hj2⟩
    exact EventKind.noConfusion hj2
  unfold blockKinds
  rw [List.count_append, List.count_append, List.count_append, List.count_append,
    z1, o2, z3, z4, z5]

/-- Each after-test hook index below the hook count occurs exactly once in
a feature's block. -/
theorem count_block_afterTest {Ctx : Type} (cfg : envconf.Config) (nbf nbt nat' naf : Nat)
    (f : Feature Ctx) (j : Nat) (hj : j < nat') :
    (blockKinds cfg nbf nbt nat' naf f).count (EventKind.kAfterTest j) = 1 := by
  have hinj : Function.Injective (fun j => EventKind.kAfterTest j) :=
    fun a b hab => by simpa using hab
  have z1 : ((List.range' 0 nbf).map
      (fun i => EventKind.kBeforeFeature i f.name f.labels)).count
        (EventKind.kAfterTest j) = 0 := by
    rw [List.count_eq_zero]
    intro hmem
    rcases List.mem_map.mp hmem with ⟨i, hi1, hi2⟩
    exact EventKind.noConfusion hi2
  have z2 : ((List.range' 0 nbt).map (fun i => EventKind.kBeforeTest i)).count
      (EventKind.kAfterTest j) = 0 := by
    rw [List.count_eq_zero]
    intro hmem
    rcases List.mem_map.mp hmem with ⟨i, hi1, hi2⟩
    exact EventKind.noConfusion hi2
  have z3 : (assessKinds cfg f).count (EventKind.kAfterTest j) = 0 := by
    rw [List.count_eq_zero]
    intro hmem
    rcases List.mem_map.mp hmem with ⟨a, ha1, ha2⟩
    exact EventKind.noConfusion ha2
  have o4 : ((List.range' 0 nat').map (fun i => EventKind.kAfterTest i)).count
      (EventKind.kAfterTest j) = 1 := by
    rw [← List.range_eq_range']
    exact (List.count_map_of_injective (List.range nat') _ hinj j).trans
      (List.count_eq_one_of_mem (List.nodup_range nat') (List.mem_range.mpr hj))
  have z5 : ((List.range' 0 naf).map
      (fun i => EventKind.kAfterFeature i f.name f.labels)).count
        (EventKind.kAfterTest j) = 0 := by
    rw [List.count_eq_zero]
    intro hmem
    rcases List.mem_map.mp hmem with ⟨i, hi1, hi2⟩
    exact EventKind.noConfusion hi2
  unfold blockKinds
  rw [List.count_append, List.count_append, List.count_append, List.count_append,
    z1, z2, z3, o4, z5]

/-- A kind occurring exactly once per block occurs once per feature over a
feature list. -/
theorem flatKinds_count {Ctx : Type} (g : Feature Ctx → List EventKind) (k : EventKind)
    (hone : ∀ f, (g f).count k = 1) :
    ∀ feats : List (Feature Ctx), (flatKinds g feats).count k = feats.length := by
  intro feats
  induction feats with
  | nil => rfl
  | cons f rest ih =>
    simp only [flatKinds]
    rw [List.count_append, hone f, ih, List.length_cons]
    omega

/-- Skipped features contribute nothing: processing a feature list equals
processing only its matching features. -/
theorem processFeatures_filter {Ctx : Type} (cfg : envconf.Config) (th : TestHandle)
    (bfHooks afHooks : List (FeatureFunc Ctx)) (btHooks atHooks : List (TestFunc Ctx)) :
    ∀ (feats : List (Feature Ctx)) (c : Ctx),
      processFeatures cfg th bfHooks afHooks btHooks atHooks feats c
        = processFeatures cfg th bfHooks afHooks btHooks atHooks
            (feats.filter (fun f => matchesFeature cfg f.name)) c := by
  intro feats
  induction feats with
  | nil => intro c; rfl
  | cons f rest ih =>
    intro c
    cases hm : matchesFeature cfg f.name with
    | true =>
      rw [show List.filter (fun f => matchesFeature cfg f.name) (f :: rest)
          = f :: List.filter (fun f => matchesFeature cfg f.name) rest by
        simp [List.filter_cons, hm]]
      simp only [processFeatures]
      rw [if_pos hm, if_pos hm, ih]
    | false =>
      rw [show List.filter (fun f => matchesFeature cfg f.name) (f :: rest)
          = List.filter (fun f => matchesFeature cfg f.name) rest by
        simp [List.filter_cons, hm]]
      simp only [processFeatures]
      rw [if_neg (show ¬(matchesFeature cfg f.name = true) by simp [hm])]
      exact ih c

end env

open env features envconf

/-- Claim C2: for a Test call whose features are all selected and whose
hooks do not fail, each registered before-test hook runs exactly once per
feature and each registered after-test hook runs exactly once per feature
— with K features, K times each — and the trace is the per-feature blocks
placing the before-test hooks before each feature's assessments and the
after-test hooks after them. -/
theorem claimC2_per_feature_test_hooks {Ctx : Type} (e : env.testEnv Ctx) (th : TestHandle)
    (feats : List (features.Feature Ctx)) (i j : Nat)
    (hbf : ∀ h ∈ beforeFeatureActionsOf e, featureFuncNoFail h)
    (hbt : ∀ g ∈ beforeTestActionsOf e, testFuncNoFail g)
    (hsel : ∀ f ∈ feats, matchesFeature e.cfg f.name = true)
    (hi : i < (beforeTestActionsOf e).length)
    (hj : j < (afterTestActionsOf e).length) :
    ((e.Test th feats).2).map Event.kind
        = flatKinds
            (blockKinds e.cfg (beforeFeatureActionsOf e).length (beforeTestActionsOf e).length
              (afterTestActionsOf e).length (afterFeatureActionsOf e).length)
            feats
      ∧ (((e.Test th feats).2).map Event.kind).count (EventKind.kBeforeTest i) = feats.length
      ∧ (((e.Test th feats).2).map Event.kind).count (EventKind.kAfterTest j) = feats.length := by
  have hshape := test_kinds_shape e th feats hbf hbt hsel
  refine ⟨hshape, ?_, ?_⟩
  · rw [hshape]
    exact flatKinds_count _ _ (fun f => count_block_beforeTest e.cfg _ _ _ _ f i hi) feats
  · rw [hshape]
    exact flatKinds_count _ _ (fun f => count_block_afterTest e.cfg _ _ _ _ f j hj) feats

/-- Witness for claim C2: the engine with one before-test and one
after-test hook run over two selected features executes each of the two
hooks exactly twice. -/
theorem claimC2_per_feature_test_hooks_witness :
    ((examples.envAllHooks.Test examples.th0 [examples.featW1, examples.featW2]).2).map Event.kind
        = flatKinds
            (blockKinds examples.envAllHooks.cfg
              (beforeFeatureActionsOf examples.envAllHooks).length
              (beforeTestActionsOf examples.envAllHooks).length
              (afterTestActionsOf examples.envAllHooks).length
              (afterFeatureActionsOf examples.envAllHooks).length)
            [examples.featW1, examples.featW2]
      ∧ (((examples.envAllHooks.Test examples.th0
            [examples.featW1, examples.featW2]).2).map Event.kind).count
          (EventKind.kBeforeTest 0) = 2
      ∧ (((examples.envAllHooks.Test examples.th0
            [examples.featW1, examples.featW2]).2).map Event.kind).count
          (EventKind.kAfterTest 0) = 2 :=
  claimC2_per_feature_test_hooks examples.envAllHooks examples.th0
    [examples.featW1, examples.featW2] 0 0
    (fun h hmem => by
      have hmem' : h ∈ [(fun c _ v =>
          (c ++ ["bf"], v, none) : env.FeatureFunc (List String))] := hmem
      have heq := List.mem_singleton.mp hmem'
      subst heq
      intro c cfg ft
      rfl)
    (fun g hmem => by
      have hmem' : g ∈ [(fun c _ _ =>
          (c ++ ["bt"], none) : env.TestFunc (List String))] := hmem
      have heq := List.mem_singleton.mp hmem'
      subst heq
      intro c cfg th
      rfl)
    (fun _ _ => rfl)
    Nat.zero_lt_one
    Nat.zero_lt_one

/-- Claim C6: on the error-free path with all features selected, the
before-feature and after-feature hooks run once per feature and bracket
that feature's work — the trace is, for each feature in supplied order,
all before-feature hooks, then the feature's per-test hooks and selected
assessments, then all after-feature hooks, before any hook of the next
feature. -/
theorem claimC6_feature_hooks_bracket {Ctx : Type} (e : env.testEnv Ctx) (th : TestHandle)
    (feats : List (features.Feature Ctx))
    (hbf : ∀ h ∈ beforeFeatureActionsOf e, featureFuncNoFail h)
    (hbt : ∀ g ∈ beforeTestActionsOf e, testFuncNoFail g)
    (hsel : ∀ f ∈ feats, matchesFeature e.cfg f.name = true) :
    ((e.Test th feats).2).map Event.kind
      = flatKinds
          (blockKinds e.cfg (beforeFeatureActionsOf e).length (beforeTestActionsOf e).length
            (afterTestActionsOf e).length (afterFeatureActionsOf e).length)
          feats :=
  test_kinds_shape e th feats hbf hbt hsel

/-- Witness for claim C6: the engine with one hook of each per-test and
per-feature role over two features records exactly the two bracketed
per-feature blocks. -/
theorem claimC6_feature_hooks_bracket_witness :
    ((examples.envAllHooks.Test examples.th0 [examples.featW1, examples.featW2]).2).map Event.kind
      = flatKinds
          (blockKinds examples.envAllHooks.cfg
            (beforeFeatureActionsOf examples.envAllHooks).length
            (beforeTestActionsOf examples.envAllHooks).length
            (afterTestActionsOf examples.envAllHooks).length
            (afterFeatureActionsOf examples.envAllHooks).length)
          [examples.featW1, examples.featW2] :=
  claimC6_feature_hooks_bracket examples.envAllHooks examples.th0
    [examples.featW1, examples.featW2]
    (fun h hmem => by
      have hmem' : h ∈ [(fun c _ v =>
          (c ++ ["bf"], v, none) : env.FeatureFunc (List String))] := hmem
      have heq := List.mem_singleton.mp hmem'
      subst heq
      intro c cfg ft
      rfl)
    (fun g hmem => by
      have hmem' : g ∈ [(fun c _ _ =>
          (c ++ ["bt"], none) : env.TestFunc (List String))] := hmem
      have heq := List.mem_singleton.mp hmem'
      subst heq
      intro c cfg th
      rfl)
    (fun _ _ => rfl)

/-- Claim C4: a feature whose name fails the configured feature-name
filter is skipped entirely — running Test on any feature list equals
running it on the sub-list of matching features, so no hook or assessment
runs for a skipped feature — while a feature whose name matches has its
assessments run: the engine with pattern "A" yields ["A-ran"] on the
feature named "A", the engine with pattern "B" yields []. -/
theorem claimC4_feature_filter_skips :
    (∀ (Ctx : Type) (e : env.testEnv Ctx) (th : TestHandle)
        (feats : List (features.Feature Ctx)),
        e.Test th feats
          = e.Test th (feats.filter (fun f => matchesFeature e.cfg f.name)))
      ∧ (examples.envFilterA.Test examples.th0 [examples.featA]).1.ctx = ["A-ran"]
      ∧ (examples.envFilterB.Test examples.th0 [examples.featA]).1.ctx = [] := by
  refine ⟨?_, rfl, rfl⟩
  intro Ctx e th feats
  simp only [env.testEnv.Test]
  rw [env.processFeatures_filter]

/-- Claim C5: with an assessment-name filter configured, an assessment
whose name does not match is skipped while its sibling assessments in the
same feature still run in declared order — on a hook-free engine the
recorded kinds are exactly the feature's matching assessments in declared
order — and the concrete feature with assessments add-one, add-two,
take-one under the add-* pattern produces exactly the markers
["add-1", "add-2"], omitting take-one. -/
theorem claimC5_assessment_filter :
    (∀ (Ctx : Type) (c0 : Ctx) (cfg : envconf.Config) (th : TestHandle)
        (f : features.Feature Ctx),
        (((env.NewWithConfig c0 cfg).Test th [f]).2).map Event.kind
          = if matchesFeature cfg f.name = true then assessKinds cfg f else [])
      ∧ (examples.envAssessFilter.Test examples.th0 [examples.featAddTake]).1.ctx
          = ["add-1", "add-2"] := by
  constructor
  · intro Ctx c0 cfg th f
    have hk := env.processFeature_kinds cfg th
      (env.beforeFeatureActionsOf (env.NewWithConfig c0 cfg))
      (env.afterFeatureActionsOf (env.NewWithConfig c0 cfg))
      (env.beforeTestActionsOf (env.NewWithConfig c0 cfg))
      (env.afterTestActionsOf (env.NewWithConfig c0 cfg))
      (fun h hh => absurd hh (List.not_mem_nil h))
      (fun g hg => absurd hg (List.not_mem_nil g)) f c0
    simp only [env.testEnv.Test, env.processFeatures, env.NewWithConfig] at hk ⊢
    cases hm : matchesFeature cfg f.name with
    | true =>
      rw [if_pos rfl, if_pos rfl, List.append_nil, hk]
      show env.blockKinds cfg 0 0 0 0 f = env.assessKinds cfg f
      simp [env.blockKinds, List.range']
    | false =>
      rw [if_neg (show ¬(false = true) by simp), if_neg (show ¬(false = true) by simp)]
      rfl
  · rfl

end E2E
